import Mathlib

/-!
# Verification of py-caskdb (disk_store.py, format.py)

Shallow embedding of the BitCask-style key-value store:

* `format.py` — the codec: `int_to_bytes`, `encode_header`, `encode_kv`,
  `decode_kv`, `decode_header`.
* `disk_store.py` — the store: `DiskStorage.__init__` (open + startup scan),
  `set`, `get`, `close`.

Modelling conventions:

* Python `bytes` and `str` are both `List Nat` (a `str` is its sequence of
  code points; `.encode('ascii')`/`.decode('ascii')` succeed exactly when every
  element is `< 128` and are then the identity).
* Fallible Python code (raised exceptions) is `Except String`.
* The two file handles of `DiskStorage` view a single append-only byte list
  `file`; `read(n)` at position `p` is `(file.drop p).take n` (Python reads
  clip at end-of-file and never fail), `tell()` after a read advances by the
  number of bytes actually read, and the append handle writes at the end.
* A Python `dict` is an insertion-ordered association list; assignment to an
  existing key replaces the value in place, otherwise appends.
* The file system is `Option (List Nat)`: `none` means no file exists at the
  path, in which case Python's `open(file_name, "rb")` raises
  `FileNotFoundError` (the read handle is opened before the append handle that
  would create the file).
-/

namespace CaskDB

/-! ## format.py -/

def HEADER_SIZE : Nat := 12

/-- Python `s.encode('ascii')`: identity on code-point sequences that are all
7-bit, `UnicodeEncodeError` otherwise. -/
def str_encode_ascii (s : List Nat) : Except String (List Nat) :=
  if s.all (fun c => decide (c < 128)) then .ok s
  else .error "UnicodeEncodeError: ascii codec cannot encode"

/-- Python `b.decode('ascii')`: identity on byte sequences that are all 7-bit,
`UnicodeDecodeError` otherwise. -/
def bytes_decode_ascii (b : List Nat) : Except String (List Nat) :=
  if b.all (fun c => decide (c < 128)) then .ok b
  else .error "UnicodeDecodeError: ascii codec cannot decode"

/-- The four big-endian base-256 digits of `n`, i.e. Python
`n.to_bytes(4, "big")` for `n < 2^32`. -/
def int4 (n : Nat) : List Nat :=
  [n / 16777216 % 256, n / 65536 % 256, n / 256 % 256, n % 256]

/-- `format.int_to_bytes`.  Python tests `the_int.bit_length() > 4 * 8`,
which for a nonnegative int is equivalent to `2^32 ≤ the_int`. -/
def int_to_bytes (the_int : Nat) : Except String (List Nat) :=
  if 4294967296 ≤ the_int then .error "int was greater than 4 bytes"
  else .ok (int4 the_int)

/-- `format.encode_header`. -/
def encode_header (timestamp key_size value_size : Nat) :
    Except String (List Nat) :=
  match int_to_bytes timestamp with
  | .error e => .error e
  | .ok b1 =>
    match int_to_bytes key_size with
    | .error e => .error e
    | .ok b2 =>
      match int_to_bytes value_size with
      | .error e => .error e
      | .ok b3 => .ok (b1 ++ b2 ++ b3)

/-- `format.encode_kv`. -/
def encode_kv (timestamp : Nat) (key value : List Nat) :
    Except String (Nat × List Nat) :=
  match str_encode_ascii key with
  | .error e => .error e
  | .ok encoded_key =>
    match str_encode_ascii value with
    | .error e => .error e
    | .ok encoded_value =>
      match encode_header timestamp encoded_key.length encoded_value.length with
      | .error e => .error e
      | .ok header_bytes =>
        let encoded := header_bytes ++ encoded_key ++ encoded_value
        .ok (encoded.length, encoded)

/-- Python `int.from_bytes(bs, "big")` (defined for any length, `0` on the
empty slice). -/
def int_from_bytes (bs : List Nat) : Nat :=
  bs.foldl (fun acc b => acc * 256 + b) 0

/-- `format.decode_header`: `data[0:4]`, `data[4:8]`, `data[8:12]` interpreted
big-endian.  Python slices clip at the end of the data. -/
def decode_header (data : List Nat) : Nat × Nat × Nat :=
  (int_from_bytes (data.take 4),
   int_from_bytes ((data.drop 4).take 4),
   int_from_bytes ((data.drop 8).take 4))

/-- `format.decode_kv`: header from `data[0:HEADER_SIZE]`, key from
`data[HEADER_SIZE : HEADER_SIZE + key_size]`, value from
`data[HEADER_SIZE + key_size : len(data)]` — note the value slice runs to the
end of `data`, and Python slices clip rather than fail. -/
def decode_kv (data : List Nat) : Except String (Nat × List Nat × List Nat) :=
  let t3 := decode_header (data.take HEADER_SIZE)
  match bytes_decode_ascii ((data.drop HEADER_SIZE).take t3.2.1) with
  | .error e => .error e
  | .ok key =>
    match bytes_decode_ascii (data.drop (HEADER_SIZE + t3.2.1)) with
    | .error e => .error e
    | .ok value => .ok (t3.1, key, value)

/-- The bytes of one well-formed record as laid out by `encode_kv`:
`header(12) ++ key ++ value`. -/
def encRec (ts : Nat) (key value : List Nat) : List Nat :=
  int4 ts ++ int4 key.length ++ int4 value.length ++ key ++ value

/-! ## disk_store.py -/

/-- The `Entry` dataclass. -/
structure Entry where
  file_name : String
  value_size : Nat
  value_position : Nat
  timestamp : Nat
deriving DecidableEq

abbrev KeyDir := List (List Nat × Entry)

/-- First value stored under `k`, i.e. Python `d[k]` / `k in d` (a dict holds
each key at most once, so the first match is the match). -/
def dict_get : KeyDir → List Nat → Option Entry
  | [], _ => none
  | p :: rest, k => if p.1 = k then some p.2 else dict_get rest k

/-- Python dict assignment `d[k] = ...` combined with the
present/absent branches of the stores: if `k` is present, every binding of
`k` is replaced in place by `(k, f old)`, otherwise `(k, e)` is appended.
The startup scan replaces wholesale (`f` constant); `set` mutates the fields
of the existing entry. -/
def dict_upsert (d : KeyDir) (k : List Nat) (f : Entry → Entry) (e : Entry) :
    KeyDir :=
  if d.any (fun p => decide (p.1 = k)) then
    d.map (fun p => if p.1 = k then (k, f p.2) else p)
  else
    d ++ [(k, e)]

/-- Number of bindings of `k` in the key dir. -/
def keyCount (d : KeyDir) (k : List Nat) : Nat :=
  (d.filter (fun p => decide (p.1 = k))).length

/-- The state of one `DiskStorage` object: its file name, its in-memory
`key_dir`, and the contents of the file both handles point at. -/
structure DiskStorage where
  file_name : String
  key_dir : KeyDir
  file : List Nat
deriving DecidableEq

/-- One iteration of the `while True` loop of
`DiskStorage.__load_file_into_key_dir`, at absolute position `pos` with the
bytes `rest` not yet consumed.  The fuel argument only bounds the recursion;
`|rest| + 1` is always enough because every iteration consumes at least the
12 header bytes. -/
def scanFuel (fname : String) :
    Nat → Nat → List Nat → KeyDir → Except String KeyDir
  | 0, _, _, _ => .error "scan fuel exhausted"
  | fuel + 1, pos, rest, kd =>
    let header := rest.take HEADER_SIZE
    if header.isEmpty then .ok kd
    else if header.length ≠ HEADER_SIZE then
      .error "Expected 12 byte header but got fewer bytes"
    else
      let t3 := decode_header header
      let afterHeader := rest.drop HEADER_SIZE
      let keyBytes := afterHeader.take t3.2.1
      match bytes_decode_ascii keyBytes with
      | .error e => .error e
      | .ok key =>
        let value_position := pos + HEADER_SIZE + keyBytes.length
        let afterKey := afterHeader.drop t3.2.1
        let valueBytes := afterKey.take t3.2.2
        scanFuel fname fuel (value_position + valueBytes.length)
          (afterKey.drop t3.2.2)
          (dict_upsert kd key
            (fun _ => Entry.mk fname t3.2.2 value_position t3.1)
            (Entry.mk fname t3.2.2 value_position t3.1))

/-- `DiskStorage.__init__`: open the read handle (raises `FileNotFoundError`
when no file exists at the path, since `"rb"` mode does not create and the
creating `"ab"` handle is only opened afterwards), run
`__load_file_into_key_dir`, then open the append handle at end-of-file. -/
def openStore (file_name : String) (disk : Option (List Nat)) :
    Except String DiskStorage :=
  match disk with
  | none => .error "FileNotFoundError"
  | some bytes =>
    match scanFuel file_name (bytes.length + 1) 0 bytes [] with
    | .error e => .error e
    | .ok kd => .ok (DiskStorage.mk file_name kd bytes)

/-- `DiskStorage.set` with the wall-clock reading `int(time.time())` passed in
as `current_time`.  The record is appended, then
`value_position = write_file.tell() - len(value)` and the key dir is updated
(in place when the key exists — keeping the old `file_name` field — appending
a fresh `Entry` otherwise). -/
def setOp (current_time : Nat) (key value : List Nat) (s : DiskStorage) :
    Except String DiskStorage :=
  match encode_kv current_time key value with
  | .error e => .error e
  | .ok r =>
    let file' := s.file ++ r.2
    let value_position := file'.length - value.length
    .ok (DiskStorage.mk s.file_name
      (dict_upsert s.key_dir key
        (fun old =>
          { old with
            value_position := value_position
            timestamp := current_time
            value_size := value.length })
        (Entry.mk s.file_name value.length value_position current_time))
      file')

/-- `DiskStorage.get`: look the key up; when present, seek to
`value_position`, read `value_size` bytes (clipped at end-of-file, as Python
reads are) and decode them as ASCII; when absent return `""`. -/
def getOp (s : DiskStorage) (key : List Nat) : Except String (List Nat) :=
  match dict_get s.key_dir key with
  | some entry =>
    bytes_decode_ascii ((s.file.drop entry.value_position).take entry.value_size)
  | none => .ok []

/-- `DiskStorage.close`: flush and close both handles; what persists on disk
is the file contents. -/
def closeOp (s : DiskStorage) : List Nat := s.file

/-- Files that are a concatenation of complete, in-bounds records (the shape
`set` writes): for each record the three header fields fit in four bytes and
the key is 7-bit (the startup scan decodes keys as ASCII). -/
inductive WFFile : List Nat → Prop
  | nil : WFFile []
  | cons (ts : Nat) (key value rest : List Nat)
      (hts : ts < 4294967296)
      (hk : key.length < 4294967296)
      (hv : value.length < 4294967296)
      (hka : ∀ c ∈ key, c < 128)
      (hrest : WFFile rest) :
      WFFile (encRec ts key value ++ rest)

/-- The stores in the `Ready` state: those produced by a successful
`DiskStorage.__init__` on some existing file, followed by any number of
successful `set` calls (`get` and `close` do not change the state). -/
inductive Reachable : DiskStorage → Prop
  | openR (fn : String) (bytes : List Nat) (s : DiskStorage)
      (h : openStore fn (some bytes) = .ok s) : Reachable s
  | setR (s s' : DiskStorage) (t : Nat) (k v : List Nat)
      (hs : Reachable s) (h : setOp t k v s = .ok s') : Reachable s'

/-- The `Ready` stores whose file at open time was a well-formed record
sequence. -/
inductive ReachableWF : DiskStorage → Prop
  | openR (fn : String) (bytes : List Nat) (s : DiskStorage)
      (hwf : WFFile bytes)
      (h : openStore fn (some bytes) = .ok s) : ReachableWF s
  | setR (s s' : DiskStorage) (t : Nat) (k v : List Nat)
      (hs : ReachableWF s) (h : setOp t k v s = .ok s') : ReachableWF s'

/-- The spec's index invariant: every entry points at bytes that lie inside
the current file. -/
def StoreInv (s : DiskStorage) : Prop :=
  ∀ p ∈ s.key_dir, p.2.value_position + p.2.value_size ≤ s.file.length

instance : DecidablePred StoreInv := fun s =>
  inferInstanceAs (Decidable (∀ p ∈ s.key_dir, _))

/-! ## Codec lemmas -/

theorem str_encode_ascii_ok {s : List Nat} (h : ∀ c ∈ s, c < 128) :
    str_encode_ascii s = .ok s := by
  unfold str_encode_ascii
  rw [if_pos]
  exact List.all_eq_true.mpr fun c hc => decide_eq_true (h c hc)

theorem bytes_decode_ascii_ok {b : List Nat} (h : ∀ c ∈ b, c < 128) :
    bytes_decode_ascii b = .ok b := by
  unfold bytes_decode_ascii
  rw [if_pos]
  exact List.all_eq_true.mpr fun c hc => decide_eq_true (h c hc)

theorem int_from_bytes_digits (n : Nat) (h : n < 4294967296) :
    int_from_bytes
      [n / 16777216 % 256, n / 65536 % 256, n / 256 % 256, n % 256] = n := by
  simp only [int_from_bytes, List.foldl]
  omega

theorem int_from_bytes_int4 (n : Nat) (h : n < 4294967296) :
    int_from_bytes (int4 n) = n :=
  int_from_bytes_digits n h

theorem int_to_bytes_ok {n : Nat} (h : n < 4294967296) :
    int_to_bytes n = .ok (int4 n) := by
  unfold int_to_bytes
  rw [if_neg (by omega)]

theorem int4_length (n : Nat) : (int4 n).length = 4 := rfl

theorem encRec_length (ts : Nat) (key value : List Nat) :
    (encRec ts key value).length = 12 + key.length + value.length := by
  simp [encRec, int4]
  omega

/-- `decode_header` on 12 explicitly listed leading bytes. -/
theorem decode_header_cons
    (x1 x2 x3 x4 x5 x6 x7 x8 x9 x10 x11 x12 : Nat) (rest : List Nat) :
    decode_header
        (x1 :: x2 :: x3 :: x4 :: x5 :: x6 :: x7 :: x8 :: x9 :: x10 :: x11 ::
          x12 :: rest)
      = (int_from_bytes [x1, x2, x3, x4], int_from_bytes [x5, x6, x7, x8],
         int_from_bytes [x9, x10, x11, x12]) := rfl

/-- Normal form of a record (with anything appended) as iterated cons. -/
theorem encRec_append_cons (ts : Nat) (key value tail : List Nat) :
    encRec ts key value ++ tail
      = ts / 16777216 % 256 :: ts / 65536 % 256 :: ts / 256 % 256 :: ts % 256 ::
        key.length / 16777216 % 256 :: key.length / 65536 % 256 ::
        key.length / 256 % 256 :: key.length % 256 ::
        value.length / 16777216 % 256 :: value.length / 65536 % 256 ::
        value.length / 256 % 256 :: value.length % 256 ::
        (key ++ (value ++ tail)) := by
  simp [encRec, int4]

theorem decode_header_encRec {ts : Nat} {key value : List Nat}
    (hts : ts < 4294967296) (hk : key.length < 4294967296)
    (hv : value.length < 4294967296) (tail : List Nat) :
    decode_header ((encRec ts key value ++ tail).take 12)
      = (ts, key.length, value.length) := by
  rw [encRec_append_cons]
  show decode_header (_ :: _ :: _ :: _ :: _ :: _ :: _ :: _ :: _ :: _ :: _ ::
    _ :: List.take 0 _) = _
  rw [decode_header_cons]
  rw [int_from_bytes_digits ts hts, int_from_bytes_digits key.length hk,
    int_from_bytes_digits value.length hv]

theorem encode_header_ok {ts ks vs : Nat} (hts : ts < 4294967296)
    (hks : ks < 4294967296) (hvs : vs < 4294967296) :
    encode_header ts ks vs = .ok (int4 ts ++ int4 ks ++ int4 vs) := by
  unfold encode_header
  rw [int_to_bytes_ok hts, int_to_bytes_ok hks, int_to_bytes_ok hvs]

theorem str_encode_ascii_err {s : List Nat} (h : ¬ ∀ c ∈ s, c < 128) :
    str_encode_ascii s
      = .error "UnicodeEncodeError: ascii codec cannot encode" := by
  unfold str_encode_ascii
  rw [if_neg]
  intro hall
  exact h fun c hc => of_decide_eq_true (List.all_eq_true.mp hall c hc)

theorem int_to_bytes_err {n : Nat} (h : 4294967296 ≤ n) :
    int_to_bytes n = .error "int was greater than 4 bytes" := by
  unfold int_to_bytes
  rw [if_pos h]

theorem encode_header_err_ts {ts ks vs : Nat} (h : 4294967296 ≤ ts) :
    encode_header ts ks vs = .error "int was greater than 4 bytes" := by
  unfold encode_header
  rw [int_to_bytes_err h]

theorem encode_header_err_ks {ts ks vs : Nat} (hts : ts < 4294967296)
    (h : 4294967296 ≤ ks) :
    encode_header ts ks vs = .error "int was greater than 4 bytes" := by
  unfold encode_header
  rw [int_to_bytes_ok hts, int_to_bytes_err h]

theorem encode_header_err_vs {ts ks vs : Nat} (hts : ts < 4294967296)
    (hks : ks < 4294967296) (h : 4294967296 ≤ vs) :
    encode_header ts ks vs = .error "int was greater than 4 bytes" := by
  unfold encode_header
  rw [int_to_bytes_ok hts, int_to_bytes_ok hks, int_to_bytes_err h]

theorem encode_kv_ok {ts : Nat} {key value : List Nat}
    (hka : ∀ c ∈ key, c < 128) (hva : ∀ c ∈ value, c < 128)
    (hts : ts < 4294967296) (hk : key.length < 4294967296)
    (hv : value.length < 4294967296) :
    encode_kv ts key value
      = .ok (12 + key.length + value.length, encRec ts key value) := by
  unfold encode_kv
  rw [str_encode_ascii_ok hka]
  dsimp only
  rw [str_encode_ascii_ok hva]
  dsimp only
  rw [encode_header_ok hts hk hv]
  dsimp only
  show Except.ok ((encRec ts key value).length, encRec ts key value) = _
  rw [encRec_length]

/-- Inversion: a successful `encode_kv` forces the ASCII and 4-byte-field
side conditions and produces exactly one record. -/
theorem encode_kv_ok_inv {ts : Nat} {key value : List Nat}
    {r : Nat × List Nat} (h : encode_kv ts key value = .ok r) :
    (∀ c ∈ key, c < 128) ∧ (∀ c ∈ value, c < 128) ∧
    ts < 4294967296 ∧ key.length < 4294967296 ∧ value.length < 4294967296 ∧
    r = (12 + key.length + value.length, encRec ts key value) := by
  by_cases hka : ∀ c ∈ key, c < 128
  · by_cases hva : ∀ c ∈ value, c < 128
    · by_cases hts : ts < 4294967296
      · by_cases hk : key.length < 4294967296
        · by_cases hv : value.length < 4294967296
          · rw [encode_kv_ok hka hva hts hk hv] at h
            refine ⟨hka, hva, hts, hk, hv, ?_⟩
            exact (Except.ok.injEq _ _ ▸ h).symm
          · unfold encode_kv at h
            rw [str_encode_ascii_ok hka] at h
            dsimp only at h
            rw [str_encode_ascii_ok hva] at h
            dsimp only at h
            rw [encode_header_err_vs hts hk (by omega)] at h
            simp at h
        · unfold encode_kv at h
          rw [str_encode_ascii_ok hka] at h
          dsimp only at h
          rw [str_encode_ascii_ok hva] at h
          dsimp only at h
          rw [encode_header_err_ks hts (by omega)] at h
          simp at h
      · unfold encode_kv at h
        rw [str_encode_ascii_ok hka] at h
        dsimp only at h
        rw [str_encode_ascii_ok hva] at h
        dsimp only at h
        rw [encode_header_err_ts (by omega)] at h
        simp at h
    · unfold encode_kv at h
      rw [str_encode_ascii_ok hka] at h
      dsimp only at h
      rw [str_encode_ascii_err hva] at h
      simp at h
  · unfold encode_kv at h
    rw [str_encode_ascii_err hka] at h
    simp at h

/-! ## Dict (Python `dict`) lemmas -/

theorem dict_get_cons_eq {p : List Nat × Entry} {k : List Nat} (hp : p.1 = k)
    (d : KeyDir) : dict_get (p :: d) k = some p.2 := by
  simp only [dict_get]
  rw [if_pos hp]

theorem dict_get_cons_ne {p : List Nat × Entry} {k : List Nat} (hp : p.1 ≠ k)
    (d : KeyDir) : dict_get (p :: d) k = dict_get d k := by
  simp only [dict_get]
  rw [if_neg hp]

theorem dict_upsert_nil (k : List Nat) (f : Entry → Entry) (e : Entry) :
    dict_upsert [] k f e = [(k, e)] := rfl

theorem dict_upsert_cons_eq {p : List Nat × Entry} {k : List Nat}
    (hp : p.1 = k) (d : KeyDir) (f : Entry → Entry) (e : Entry) :
    dict_upsert (p :: d) k f e
      = (k, f p.2) :: d.map (fun q => if q.1 = k then (k, f q.2) else q) := by
  unfold dict_upsert
  rw [if_pos (by simp [List.any_cons, hp]), List.map_cons, if_pos hp]

theorem dict_upsert_cons_ne {p : List Nat × Entry} {k : List Nat}
    (hp : p.1 ≠ k) (d : KeyDir) (f : Entry → Entry) (e : Entry) :
    dict_upsert (p :: d) k f e = p :: dict_upsert d k f e := by
  unfold dict_upsert
  have hcond : ((p :: d).any fun q => decide (q.1 = k))
      = (d.any fun q => decide (q.1 = k)) := by
    simp [List.any_cons, hp]
  rw [hcond]
  by_cases hd : (d.any fun q => decide (q.1 = k)) = true
  · rw [if_pos hd, if_pos hd, List.map_cons, if_neg hp]
  · rw [if_neg hd, if_neg hd, List.cons_append]

theorem dict_get_upsert_self (d : KeyDir) (k : List Nat) (f : Entry → Entry)
    (e : Entry) :
    dict_get (dict_upsert d k f e) k
      = some (match dict_get d k with | some old => f old | none => e) := by
  induction d with
  | nil =>
    rw [dict_upsert_nil, dict_get_cons_eq (show ((k, e)).1 = k from rfl)]
    rfl
  | cons p rest ih =>
    by_cases hp : p.1 = k
    · rw [dict_upsert_cons_eq hp,
        dict_get_cons_eq (show ((k, f p.2)).1 = k from rfl),
        dict_get_cons_eq hp]
    · rw [dict_upsert_cons_ne hp, dict_get_cons_ne hp, dict_get_cons_ne hp, ih]

theorem dict_get_map_update_ne {k' k : List Nat} (h : k' ≠ k) (d : KeyDir)
    (f : Entry → Entry) :
    dict_get (d.map (fun q => if q.1 = k then (k, f q.2) else q)) k'
      = dict_get d k' := by
  induction d with
  | nil => rfl
  | cons q rest ih =>
    rw [List.map_cons]
    by_cases hq : q.1 = k
    · rw [if_pos hq,
        dict_get_cons_ne (show ((k, f q.2)).1 ≠ k' from fun hk => h hk.symm),
        dict_get_cons_ne (fun hk => h (hq ▸ hk).symm), ih]
    · rw [if_neg hq]
      by_cases hq' : q.1 = k'
      · rw [dict_get_cons_eq hq', dict_get_cons_eq hq']
      · rw [dict_get_cons_ne hq', dict_get_cons_ne hq', ih]

theorem dict_get_upsert_ne {k' k : List Nat} (h : k' ≠ k) (d : KeyDir)
    (f : Entry → Entry) (e : Entry) :
    dict_get (dict_upsert d k f e) k' = dict_get d k' := by
  induction d with
  | nil =>
    rw [dict_upsert_nil,
      dict_get_cons_ne (show ((k, e)).1 ≠ k' from fun hk => h hk.symm)]
  | cons p rest ih =>
    by_cases hp : p.1 = k
    · rw [dict_upsert_cons_eq hp,
        dict_get_cons_ne (show ((k, f p.2)).1 ≠ k' from fun hk => h hk.symm),
        dict_get_cons_ne (fun hk => h (hp ▸ hk).symm),
        dict_get_map_update_ne h]
    · rw [dict_upsert_cons_ne hp]
      by_cases hp' : p.1 = k'
      · rw [dict_get_cons_eq hp', dict_get_cons_eq hp']
      · rw [dict_get_cons_ne hp', dict_get_cons_ne hp', ih]

theorem dict_get_mem {d : KeyDir} {k : List Nat} {e : Entry}
    (h : dict_get d k = some e) : (k, e) ∈ d := by
  induction d with
  | nil => exact absurd h (by simp [dict_get])
  | cons p rest ih =>
    by_cases hp : p.1 = k
    · rw [dict_get_cons_eq hp] at h
      obtain rfl : p.2 = e := by injection h
      subst hp
      exact Prod.mk.eta ▸ List.mem_cons_self p rest
    · rw [dict_get_cons_ne hp] at h
      exact List.mem_cons_of_mem p (ih h)

theorem mem_dict_upsert {p : List Nat × Entry} {d : KeyDir} {k : List Nat}
    {f : Entry → Entry} {e : Entry} (h : p ∈ dict_upsert d k f e) :
    p ∈ d ∨ (∃ old, p = (k, f old)) ∨ p = (k, e) := by
  unfold dict_upsert at h
  by_cases hd : (d.any fun q => decide (q.1 = k)) = true
  · rw [if_pos hd] at h
    obtain ⟨q, hq, hqe⟩ := List.mem_map.mp h
    by_cases hqk : q.1 = k
    · rw [if_pos hqk] at hqe
      exact Or.inr (Or.inl ⟨q.2, hqe.symm⟩)
    · rw [if_neg hqk] at hqe
      exact Or.inl (hqe ▸ hq)
  · rw [if_neg hd] at h
    rcases List.mem_append.mp h with hmem | hmem
    · exact Or.inl hmem
    · exact Or.inr (Or.inr (List.mem_singleton.mp hmem))

theorem keyCount_nil (k : List Nat) : keyCount [] k = 0 := rfl

theorem keyCount_cons_eq {p : List Nat × Entry} {k : List Nat} (hp : p.1 = k)
    (d : KeyDir) : keyCount (p :: d) k = keyCount d k + 1 := by
  unfold keyCount
  simp [List.filter_cons, hp]

theorem keyCount_cons_ne {p : List Nat × Entry} {k : List Nat} (hp : p.1 ≠ k)
    (d : KeyDir) : keyCount (p :: d) k = keyCount d k := by
  unfold keyCount
  simp [List.filter_cons, hp]

/-- The update branch of `dict_upsert` does not change any key, so all
per-key counts are preserved by the map. -/
theorem keyCount_map_update (d : KeyDir) (k k' : List Nat) (f : Entry → Entry) :
    keyCount (d.map (fun q => if q.1 = k then (k, f q.2) else q)) k'
      = keyCount d k' := by
  induction d with
  | nil => rfl
  | cons p rest ih =>
    rw [List.map_cons]
    by_cases hp : p.1 = k
    · rw [if_pos hp]
      by_cases hk : p.1 = k'
      · rw [keyCount_cons_eq (show ((k, f p.2)).1 = k' from hp ▸ hk),
          keyCount_cons_eq hk, ih]
      · rw [keyCount_cons_ne (show ((k, f p.2)).1 ≠ k' from hp ▸ hk),
          keyCount_cons_ne hk, ih]
    · rw [if_neg hp]
      by_cases hk : p.1 = k'
      · rw [keyCount_cons_eq hk, keyCount_cons_eq hk, ih]
      · rw [keyCount_cons_ne hk, keyCount_cons_ne hk, ih]

theorem keyCount_upsert_self {d : KeyDir} {k : List Nat}
    (h : keyCount d k ≤ 1) (f : Entry → Entry) (e : Entry) :
    keyCount (dict_upsert d k f e) k = 1 := by
  induction d with
  | nil =>
    rw [dict_upsert_nil, keyCount_cons_eq (show ((k, e)).1 = k from rfl),
      keyCount_nil]
  | cons p rest ih =>
    by_cases hp : p.1 = k
    · rw [dict_upsert_cons_eq hp,
        keyCount_cons_eq (show ((k, f p.2)).1 = k from rfl),
        keyCount_map_update]
      rw [keyCount_cons_eq hp] at h
      omega
    · rw [dict_upsert_cons_ne hp, keyCount_cons_ne hp]
      rw [keyCount_cons_ne hp] at h
      exact ih h

theorem keyCount_upsert_ne {k' k : List Nat} (h : k' ≠ k) (d : KeyDir)
    (f : Entry → Entry) (e : Entry) :
    keyCount (dict_upsert d k f e) k' = keyCount d k' := by
  unfold dict_upsert
  by_cases hd : (d.any fun q => decide (q.1 = k)) = true
  · rw [if_pos hd, keyCount_map_update]
  · rw [if_neg hd]
    unfold keyCount
    rw [List.filter_append, List.length_append,
      List.filter_cons_of_neg
        (by simpa using fun hk : k = k' => h hk.symm)]
    rfl

theorem keyCount_upsert_le {d : KeyDir} {k' : List Nat}
    (h : keyCount d k' ≤ 1) (k : List Nat) (f : Entry → Entry) (e : Entry) :
    keyCount (dict_upsert d k f e) k' ≤ 1 := by
  by_cases hk : k' = k
  · subst hk
    exact le_of_eq (keyCount_upsert_self h f e)
  · rw [keyCount_upsert_ne hk]
    exact h

/-! ## Scan lemmas -/

theorem scanFuel_nil (fn : String) (f pos : Nat) (kd : KeyDir) :
    scanFuel fn (f + 1) pos [] kd = .ok kd := rfl

theorem scanFuel_short {rest : List Nat} (h1 : 1 ≤ rest.length)
    (h2 : rest.length ≤ 11) (fn : String) (f pos : Nat) (kd : KeyDir) :
    scanFuel fn (f + 1) pos rest kd
      = .error "Expected 12 byte header but got fewer bytes" := by
  have htake : rest.take HEADER_SIZE = rest :=
    List.take_of_length_le (by unfold HEADER_SIZE; omega)
  simp only [scanFuel, htake]
  rw [if_neg, if_pos]
  · unfold HEADER_SIZE
    omega
  · rw [List.isEmpty_iff]
    intro hemp
    rw [hemp] at h1
    simp at h1

theorem encRec_assoc (ts : Nat) (key value tail : List Nat) :
    encRec ts key value ++ tail
      = (int4 ts ++ int4 key.length ++ int4 value.length)
          ++ (key ++ (value ++ tail)) := by
  simp [encRec, List.append_assoc]

theorem header12_length (a b c : Nat) :
    (int4 a ++ int4 b ++ int4 c).length = 12 := rfl

theorem scanFuel_encRec {ts : Nat} {key value : List Nat}
    (hts : ts < 4294967296) (hk : key.length < 4294967296)
    (hv : value.length < 4294967296) (hka : ∀ c ∈ key, c < 128)
    (fn : String) (f pos : Nat) (tail : List Nat) (kd : KeyDir) :
    scanFuel fn (f + 1) pos (encRec ts key value ++ tail) kd
      = scanFuel fn f (pos + 12 + key.length + value.length) tail
          (dict_upsert kd key
            (fun _ => Entry.mk fn value.length (pos + 12 + key.length) ts)
            (Entry.mk fn value.length (pos + 12 + key.length) ts)) := by
  have htake : (encRec ts key value ++ tail).take 12
      = int4 ts ++ int4 key.length ++ int4 value.length := by
    rw [encRec_assoc]
    exact List.take_left' (header12_length ts key.length value.length)
  have hdrop : (encRec ts key value ++ tail).drop 12
      = key ++ (value ++ tail) := by
    rw [encRec_assoc]
    exact List.drop_left' (header12_length ts key.length value.length)
  have hdh : decode_header (int4 ts ++ int4 key.length ++ int4 value.length)
      = (ts, key.length, value.length) := by
    rw [← htake]
    exact decode_header_encRec hts hk hv tail
  have hempty : (int4 ts ++ int4 key.length ++ int4 value.length).isEmpty
      = false := rfl
  simp only [scanFuel, HEADER_SIZE, htake, hdrop, hdh]
  rw [if_neg ?h1, if_neg ?h2]
  case h1 =>
    rw [hempty]
    simp
  case h2 =>
    rw [header12_length]
    simp
  simp only [List.take_left, List.drop_left, bytes_decode_ascii_ok hka]

/-- A successful scan preserves "at most one binding per key" (Python dicts
cannot hold duplicates). -/
theorem scanFuel_counts (fn : String) (fuel : Nat) :
    ∀ (pos : Nat) (rest : List Nat) (kd kd' : KeyDir),
      scanFuel fn fuel pos rest kd = .ok kd' →
      (∀ k, keyCount kd k ≤ 1) → ∀ k, keyCount kd' k ≤ 1 := by
  induction fuel with
  | zero =>
    intro pos rest kd kd' h
    exact absurd h (by simp [scanFuel])
  | succ f ih =>
    intro pos rest kd kd' h hc
    simp only [scanFuel] at h
    by_cases hempty : (rest.take HEADER_SIZE).isEmpty = true
    · rw [if_pos hempty] at h
      obtain rfl : kd = kd' := by injection h
      exact hc
    · rw [if_neg hempty] at h
      by_cases hlen : (rest.take HEADER_SIZE).length ≠ HEADER_SIZE
      · rw [if_pos hlen] at h
        exact absurd h (by simp)
      · rw [if_neg hlen] at h
        cases hdec : bytes_decode_ascii
            ((rest.drop HEADER_SIZE).take
              (decode_header (rest.take HEADER_SIZE)).2.1) with
        | error e =>
          rw [hdec] at h
          exact absurd h (by simp)
        | ok key =>
          rw [hdec] at h
          dsimp only at h
          exact ih _ _ _ _ h fun k => keyCount_upsert_le (hc k) _ _ _

/-- Scanning runs straight through a well-formed prefix: it consumes the
records one by one, lands at the trailing bytes `t` with fuel to spare, and
every index entry it created on the way lies inside the consumed prefix. -/
theorem scan_through {bytes : List Nat} (hwf : WFFile bytes) (fn : String) :
    ∀ (t : List Nat) (fuel pos : Nat) (kd : KeyDir),
      bytes.length + t.length < fuel →
      ∃ (kd' : KeyDir) (fuel' : Nat), t.length < fuel' ∧
        scanFuel fn fuel pos (bytes ++ t) kd
          = scanFuel fn fuel' (pos + bytes.length) t kd' ∧
        (∀ p ∈ kd',
          p ∈ kd ∨ p.2.value_position + p.2.value_size ≤ pos + bytes.length) ∧
        ((∀ k, keyCount kd k ≤ 1) → ∀ k, keyCount kd' k ≤ 1) := by
  induction hwf with
  | nil =>
    intro t fuel pos kd hfuel
    refine ⟨kd, fuel, by simpa using hfuel, by simp, fun p hp => Or.inl hp,
      fun hc => hc⟩
  | cons ts key value rest hts hk hv hka hrest ih =>
    intro t fuel pos kd hfuel
    have hlb : (encRec ts key value ++ rest).length
        = 12 + key.length + value.length + rest.length := by
      rw [List.length_append, encRec_length]
    rw [List.length_append] at hfuel
    rw [encRec_length] at hfuel
    obtain ⟨f, rfl⟩ : ∃ f, fuel = f + 1 := ⟨fuel - 1, by omega⟩
    rw [List.append_assoc, scanFuel_encRec hts hk hv hka]
    obtain ⟨kd', fuel', hf', heq, hmem, hcnt⟩ :=
      ih t f (pos + 12 + key.length + value.length)
        (dict_upsert kd key
          (fun _ => Entry.mk fn value.length (pos + 12 + key.length) ts)
          (Entry.mk fn value.length (pos + 12 + key.length) ts))
        (by omega)
    refine ⟨kd', fuel', hf', ?_, ?_, ?_⟩
    · rw [heq, show pos + 12 + key.length + value.length + rest.length
        = pos + (encRec ts key value ++ rest).length from by rw [hlb]; omega]
    · intro p hp
      rcases hmem p hp with hin | hrange
      · rcases mem_dict_upsert hin with hkd | ⟨old, rfl⟩ | rfl
        · exact Or.inl hkd
        · right
          show pos + 12 + key.length + value.length ≤ _
          rw [hlb]
          omega
        · right
          show pos + 12 + key.length + value.length ≤ _
          rw [hlb]
          omega
      · right
        rw [hlb]
        omega
    · intro hc
      exact hcnt fun k => keyCount_upsert_le (hc k) _ _ _

/-! ## Store lemmas -/

theorem openStore_ok_inv {fn : String} {bytes : List Nat} {s : DiskStorage}
    (h : openStore fn (some bytes) = .ok s) :
    s.file_name = fn ∧ s.file = bytes ∧
    scanFuel fn (bytes.length + 1) 0 bytes [] = .ok s.key_dir := by
  unfold openStore at h
  dsimp only at h
  cases hscan : scanFuel fn (bytes.length + 1) 0 bytes [] with
  | error e =>
    rw [hscan] at h
    exact absurd h (by simp)
  | ok kd =>
    rw [hscan] at h
    dsimp only at h
    obtain rfl : DiskStorage.mk fn kd bytes = s := by injection h
    exact ⟨rfl, rfl, rfl⟩

/-- Opening on a well-formed file succeeds, with every reconstructed entry
in bounds and at most one entry per key. -/
theorem openStore_wf {bytes : List Nat} (hwf : WFFile bytes) (fn : String) :
    ∃ kd : KeyDir,
      openStore fn (some bytes) = .ok (DiskStorage.mk fn kd bytes) ∧
      (∀ p ∈ kd, p.2.value_position + p.2.value_size ≤ bytes.length) ∧
      (∀ k, keyCount kd k ≤ 1) := by
  obtain ⟨kd', fuel', hf', heq, hmem, hcnt⟩ :=
    scan_through hwf fn [] (bytes.length + 1) 0 [] (by simp)
  rw [List.append_nil] at heq
  obtain ⟨g, rfl⟩ : ∃ g, fuel' = g + 1 := ⟨fuel' - 1, by omega⟩
  rw [scanFuel_nil] at heq
  refine ⟨kd', ?_, ?_, ?_⟩
  · unfold openStore
    dsimp only
    rw [heq]
  · intro p hp
    rcases hmem p hp with hin | hrange
    · exact absurd hin (List.not_mem_nil p)
    · simpa using hrange
  · exact hcnt fun k => by rw [keyCount_nil]; omega

theorem setOp_ok {ts : Nat} {key value : List Nat}
    (hka : ∀ c ∈ key, c < 128) (hva : ∀ c ∈ value, c < 128)
    (hts : ts < 4294967296) (hk : key.length < 4294967296)
    (hv : value.length < 4294967296) (s : DiskStorage) :
    setOp ts key value s
      = .ok (DiskStorage.mk s.file_name
          (dict_upsert s.key_dir key
            (fun old =>
              { old with
                value_position := (s.file ++ encRec ts key value).length
                  - value.length
                timestamp := ts
                value_size := value.length })
            (Entry.mk s.file_name value.length
              ((s.file ++ encRec ts key value).length - value.length) ts))
          (s.file ++ encRec ts key value)) := by
  unfold setOp
  rw [encode_kv_ok hka hva hts hk hv]

theorem setOp_ok_inv {ts : Nat} {key value : List Nat} {s s' : DiskStorage}
    (h : setOp ts key value s = .ok s') :
    (∀ c ∈ key, c < 128) ∧ (∀ c ∈ value, c < 128) ∧
    ts < 4294967296 ∧ key.length < 4294967296 ∧ value.length < 4294967296 ∧
    s' = DiskStorage.mk s.file_name
          (dict_upsert s.key_dir key
            (fun old =>
              { old with
                value_position := (s.file ++ encRec ts key value).length
                  - value.length
                timestamp := ts
                value_size := value.length })
            (Entry.mk s.file_name value.length
              ((s.file ++ encRec ts key value).length - value.length) ts))
          (s.file ++ encRec ts key value) := by
  unfold setOp at h
  cases he : encode_kv ts key value with
  | error e =>
    rw [he] at h
    exact absurd h (by simp)
  | ok r =>
    obtain ⟨hka, hva, hts, hk, hv, rfl⟩ := encode_kv_ok_inv he
    rw [he] at h
    dsimp only at h
    obtain rfl := Except.ok.inj h
    exact ⟨hka, hva, hts, hk, hv, rfl⟩

/-- `value_position` of the entry written by `set`: the record ends the file
and the value ends the record. -/
theorem vp_eq (file : List Nat) (ts : Nat) (key value : List Nat) :
    (file ++ encRec ts key value).length - value.length
      = file.length + 12 + key.length := by
  rw [List.length_append, encRec_length]
  omega

/-- After a successful `set`, `get` of the same key returns the value just
written. -/
theorem getOp_setOp_self {ts : Nat} {key value : List Nat} {s s' : DiskStorage}
    (h : setOp ts key value s = .ok s') : getOp s' key = .ok value := by
  obtain ⟨hka, hva, hts, hk, hv, rfl⟩ := setOp_ok_inv h
  unfold getOp
  rw [dict_get_upsert_self]
  have hsplit : s.file ++ encRec ts key value
      = (s.file ++ (int4 ts ++ int4 key.length ++ int4 value.length) ++ key)
        ++ value := by
    simp [encRec, List.append_assoc]
  have hlenX : (s.file ++ (int4 ts ++ int4 key.length ++ int4 value.length)
      ++ key).length = s.file.length + 12 + key.length := by
    simp [List.length_append, int4]
    omega
  cases hget : dict_get s.key_dir key with
  | none =>
    dsimp only
    rw [vp_eq]
    rw [hsplit, List.drop_left' hlenX, List.take_length]
    exact bytes_decode_ascii_ok hva
  | some old =>
    dsimp only
    rw [vp_eq]
    rw [hsplit, List.drop_left' hlenX, List.take_length]
    exact bytes_decode_ascii_ok hva

/-- Every `Ready` store's dict holds at most one binding per key. -/
theorem reachable_counts {s : DiskStorage} (h : Reachable s) :
    ∀ k, keyCount s.key_dir k ≤ 1 := by
  induction h with
  | openR fn bytes s h =>
    obtain ⟨-, -, hscan⟩ := openStore_ok_inv h
    exact scanFuel_counts fn (bytes.length + 1) 0 bytes [] s.key_dir hscan
      fun k => by rw [keyCount_nil]; omega
  | setR s s' t k v hs h ih =>
    obtain ⟨-, -, -, -, -, rfl⟩ := setOp_ok_inv h
    intro k'
    dsimp only
    exact keyCount_upsert_le (ih k') _ _ _

/-- A `set` preserves the index-in-bounds invariant. -/
theorem setOp_preserves_inv {ts : Nat} {key value : List Nat}
    {s s' : DiskStorage} (hinv : StoreInv s)
    (h : setOp ts key value s = .ok s') : StoreInv s' := by
  obtain ⟨-, -, -, -, -, rfl⟩ := setOp_ok_inv h
  intro p hp
  dsimp only at hp
  rcases mem_dict_upsert hp with hkd | ⟨old, rfl⟩ | rfl
  · have := hinv p hkd
    show p.2.value_position + p.2.value_size
      ≤ (s.file ++ encRec ts key value).length
    rw [List.length_append]
    omega
  · show (s.file ++ encRec ts key value).length - value.length + value.length
      ≤ (s.file ++ encRec ts key value).length
    rw [List.length_append, encRec_length]
    omega
  · show (s.file ++ encRec ts key value).length - value.length + value.length
      ≤ (s.file ++ encRec ts key value).length
    rw [List.length_append, encRec_length]
    omega

/-- Every `Ready` store that started from a well-formed file satisfies the
index-in-bounds invariant. -/
theorem reachableWF_inv {s : DiskStorage} (h : ReachableWF s) : StoreInv s := by
  induction h with
  | openR fn bytes s hwf h =>
    obtain ⟨kd, hopen, hbound, -⟩ := openStore_wf hwf fn
    rw [hopen] at h
    obtain rfl := (Except.ok.inj h).symm
    exact hbound
  | setR s s' t k v hs h ih => exact setOp_preserves_inv ih h

/-- Reading a slice that lies inside `l₁` is unaffected by appending `l₂`. -/
theorem slice_append {l₁ : List Nat} (l₂ : List Nat) {p n : Nat}
    (h : p + n ≤ l₁.length) :
    ((l₁ ++ l₂).drop p).take n = (l₁.drop p).take n := by
  rw [List.drop_append_of_le_length (by omega),
    List.take_append_of_le_length (by rw [List.length_drop]; omega)]

/-- Frame property of `set` on the index: other keys keep their entry. -/
theorem dict_get_setOp_ne {ts : Nat} {key value k' : List Nat}
    {s s' : DiskStorage} (h : setOp ts key value s = .ok s')
    (hne : k' ≠ key) : dict_get s'.key_dir k' = dict_get s.key_dir k' := by
  obtain ⟨-, -, -, -, -, rfl⟩ := setOp_ok_inv h
  dsimp only
  exact dict_get_upsert_ne hne _ _ _

/-- Frame property of `set` on reads, for stores satisfying the invariant. -/
theorem getOp_setOp_ne {ts : Nat} {key value k' : List Nat}
    {s s' : DiskStorage} (hinv : StoreInv s)
    (h : setOp ts key value s = .ok s') (hne : k' ≠ key) :
    getOp s' k' = getOp s k' := by
  have hdict := dict_get_setOp_ne h hne
  obtain ⟨-, -, -, -, -, rfl⟩ := setOp_ok_inv h
  unfold getOp
  dsimp only at hdict ⊢
  rw [hdict]
  cases hget : dict_get s.key_dir k' with
  | none => rfl
  | some e =>
    dsimp only
    rw [slice_append _ (hinv (k', e) (dict_get_mem hget))]

/-! ## Claim theorems: C1, C2 -/

/-- C1: for every Ready store, after `set(k, v1)` then `set(k, v2)`, `get(k)`
returns `v2`; the index holds exactly one entry for `k`; each `set` grew the
file by exactly one encoded record (`12 + |key| + |value|` bytes), appended at
the end with no in-place overwrite of earlier bytes. -/
theorem c1_last_write_wins {s s1 s2 : DiskStorage} (hs : Reachable s)
    {t1 t2 : Nat} {k v1 v2 : List Nat}
    (h1 : setOp t1 k v1 s = .ok s1) (h2 : setOp t2 k v2 s1 = .ok s2) :
    getOp s2 k = .ok v2 ∧
    keyCount s2.key_dir k = 1 ∧
    (∃ p1, s1.file = s.file ++ p1 ∧ p1.length = 12 + k.length + v1.length) ∧
    (∃ p2, s2.file = s1.file ++ p2 ∧ p2.length = 12 + k.length + v2.length) := by
  refine ⟨getOp_setOp_self h2, ?_, ?_, ?_⟩
  · have hc1 : ∀ k', keyCount s1.key_dir k' ≤ 1 :=
      reachable_counts (Reachable.setR s s1 t1 k v1 hs h1)
    obtain ⟨-, -, -, -, -, rfl⟩ := setOp_ok_inv h2
    dsimp only
    exact keyCount_upsert_self (hc1 k) _ _
  · obtain ⟨-, -, -, -, -, rfl⟩ := setOp_ok_inv h1
    exact ⟨encRec t1 k v1, rfl, encRec_length t1 k v1⟩
  · obtain ⟨-, -, -, -, -, rfl⟩ := setOp_ok_inv h2
    exact ⟨encRec t2 k v2, rfl, encRec_length t2 k v2⟩

def c1s0 : DiskStorage := DiskStorage.mk "data.db" [] []

def c1s1 : DiskStorage :=
  DiskStorage.mk "data.db" [([104], Entry.mk "data.db" 1 13 5)]
    [0, 0, 0, 5, 0, 0, 0, 1, 0, 0, 0, 1, 104, 97]

def c1s2 : DiskStorage :=
  DiskStorage.mk "data.db" [([104], Entry.mk "data.db" 1 27 6)]
    [0, 0, 0, 5, 0, 0, 0, 1, 0, 0, 0, 1, 104, 97,
     0, 0, 0, 6, 0, 0, 0, 1, 0, 0, 0, 1, 104, 98]

/-- C1 witness: the concrete run `set("h", "a")`, `set("h", "b")` on a fresh
store. -/
theorem c1_last_write_wins_witness :
    getOp c1s2 [104] = .ok [98] ∧
    keyCount c1s2.key_dir [104] = 1 ∧
    (∃ p1, c1s1.file = c1s0.file ++ p1 ∧ p1.length = 12 + 1 + 1) ∧
    (∃ p2, c1s2.file = c1s1.file ++ p2 ∧ p2.length = 12 + 1 + 1) :=
  c1_last_write_wins (Reachable.openR "data.db" [] c1s0 rfl)
    (by rfl : setOp 5 [104] [97] c1s0 = Except.ok c1s1)
    (by rfl : setOp 6 [104] [98] c1s1 = Except.ok c1s2)

/-- Decoding an encoded record with nothing after it reproduces the triple. -/
theorem decode_kv_encRec {ts : Nat} {key value : List Nat}
    (hts : ts < 4294967296) (hk : key.length < 4294967296)
    (hv : value.length < 4294967296)
    (hka : ∀ c ∈ key, c < 128) (hva : ∀ c ∈ value, c < 128) :
    decode_kv (encRec ts key value) = .ok (ts, key, value) := by
  rw [show encRec ts key value = encRec ts key value ++ []
    from (List.append_nil _).symm]
  unfold decode_kv
  simp only [HEADER_SIZE]
  rw [decode_header_encRec hts hk hv []]
  dsimp only
  have hdrop : (encRec ts key value ++ []).drop 12 = key ++ (value ++ []) := by
    rw [encRec_assoc]
    exact List.drop_left' (header12_length ts key.length value.length)
  rw [hdrop, List.take_left, bytes_decode_ascii_ok hka]
  dsimp only
  have hdropv : (encRec ts key value ++ []).drop (12 + key.length)
      = value := by
    rw [show encRec ts key value ++ []
        = ((int4 ts ++ int4 key.length ++ int4 value.length) ++ key)
          ++ (value ++ []) from by simp [encRec, List.append_assoc]]
    rw [List.drop_left' (by
      rw [List.length_append, header12_length])]
    exact List.append_nil value
  rw [hdropv, bytes_decode_ascii_ok hva]

/-- C2: for every timestamp in `[0, 2^32 - 1]` and ASCII key/value,
decoding the record bytes produced by `encode_kv` returns exactly the
original `(timestamp, key, value)` triple. -/
theorem c2_roundtrip {ts : Nat} {key value : List Nat}
    (hts : ts < 2 ^ 32) (hka : ∀ c ∈ key, c < 128)
    (hva : ∀ c ∈ value, c < 128)
    (hk : key.length < 2 ^ 32) (hv : value.length < 2 ^ 32) :
    (encode_kv ts key value).bind (fun r => decode_kv r.2)
      = .ok (ts, key, value) := by
  have h32 : (2 : Nat) ^ 32 = 4294967296 := by norm_num
  rw [h32] at hts hk hv
  rw [encode_kv_ok hka hva hts hk hv]
  show decode_kv (encRec ts key value) = _
  exact decode_kv_encRec hts hk hv hka hva

/-- C2 witness: round trip of `(3, "ab", "c")`. -/
theorem c2_roundtrip_witness :
    (encode_kv 3 [97, 98] [99]).bind (fun r => decode_kv r.2)
      = .ok (3, [97, 98], [99]) :=
  c2_roundtrip (by norm_num) (by decide) (by decide) (by norm_num)
    (by norm_num)

/-! ## Claim theorems: C3, C4, C6 -/

/-- One scan step through a record with nothing after it. -/
theorem scanFuel_encRec_nil {ts : Nat} {key value : List Nat}
    (hts : ts < 4294967296) (hk : key.length < 4294967296)
    (hv : value.length < 4294967296) (hka : ∀ c ∈ key, c < 128)
    (fn : String) (f pos : Nat) (kd : KeyDir) :
    scanFuel fn (f + 1) pos (encRec ts key value) kd
      = scanFuel fn f (pos + 12 + key.length + value.length) []
          (dict_upsert kd key
            (fun _ => Entry.mk fn value.length (pos + 12 + key.length) ts)
            (Entry.mk fn value.length (pos + 12 + key.length) ts)) := by
  rw [show encRec ts key value = encRec ts key value ++ []
    from (List.append_nil _).symm]
  exact scanFuel_encRec hts hk hv hka fn f pos [] kd

/-- Reading back the value of the record just appended to `file`. -/
theorem read_appended_value (file : List Nat) (ts : Nat)
    (key value : List Nat) :
    ((file ++ encRec ts key value).drop (file.length + 12 + key.length)).take
        value.length = value := by
  rw [show file ++ encRec ts key value
      = (file ++ (int4 ts ++ int4 key.length ++ int4 value.length) ++ key)
        ++ value from by simp [encRec, List.append_assoc]]
  rw [List.drop_left' (by
    simp only [List.length_append, int4_length]
    )]
  rw [List.take_length]

def c3_file : List Nat := [0, 0, 0, 0, 0, 0, 0, 0, 0, 0, 0, 1]

/-- C3 counterexample: `c3_file` is a single 12-byte header claiming a 1-byte
value that is not present.  A store opened on it is Ready; after
`set("a", "b")` and `close()`, reopening **succeeds** (the scan misparses the
appended record because the stale header shifts it by one byte), and
`get("a")` returns `""`, not `"b"`. -/
theorem c3_counterexample :
    ((openStore "books.db" (some c3_file)).bind fun s =>
      (setOp 0 [97] [98] s).bind fun s1 =>
        (openStore "books.db" (some (closeOp s1))).map fun s2 =>
          getOp s2 [97])
      = .ok (.ok []) ∧
    (Except.ok ([] : List Nat) : Except String (List Nat)) ≠ .ok [98] :=
  ⟨rfl, by simp⟩

/-- A record as a `(timestamp, key, value)` triple. -/
abbrev KVRecord := Nat × List Nat × List Nat

/-- The byte image of a list of records, laid out in file order. -/
def encRecs : List KVRecord → List Nat
  | [] => []
  | r :: rs => encRec r.1 r.2.1 r.2.2 ++ encRecs rs

/-- Records whose header fields fit the 4-byte encoding and whose keys are
7-bit: the shape of every record `set` writes. -/
def GoodRecs (rs : List KVRecord) : Prop :=
  ∀ r ∈ rs, r.1 < 4294967296 ∧ r.2.1.length < 4294967296 ∧
    r.2.2.length < 4294967296 ∧ ∀ c ∈ r.2.1, c < 128

/-- The index entry the startup scan records for a record starting at byte
offset `pos`. -/
def recEntry (fn : String) (pos : Nat) (r : KVRecord) : Entry :=
  Entry.mk fn r.2.2.length (pos + 12 + r.2.1.length) r.1

/-- The key dir the startup scan builds from the records of the file,
upserting one entry per record in file order. -/
def scanIndex (fn : String) : Nat → List KVRecord → KeyDir → KeyDir
  | _, [], kd => kd
  | pos, r :: rs, kd =>
    scanIndex fn (pos + 12 + r.2.1.length + r.2.2.length) rs
      (dict_upsert kd r.2.1 (fun _ => recEntry fn pos r) (recEntry fn pos r))

/-- The entry of the last record with key `k` among records laid out from
byte offset `pos`; `none` when no record has key `k`. -/
def lastRec (fn : String) : Nat → List KVRecord → List Nat → Option Entry
  | _, [], _ => none
  | pos, r :: rs, k =>
    match lastRec fn (pos + 12 + r.2.1.length + r.2.2.length) rs k with
    | some e => some e
    | none => if r.2.1 = k then some (recEntry fn pos r) else none

theorem encRecs_cons_length (r : KVRecord) (rs : List KVRecord) :
    (encRecs (r :: rs)).length
      = 12 + r.2.1.length + r.2.2.length + (encRecs rs).length := by
  simp only [encRecs, List.length_append, encRec_length]

theorem encRecs_append (rs1 rs2 : List KVRecord) :
    encRecs (rs1 ++ rs2) = encRecs rs1 ++ encRecs rs2 := by
  induction rs1 with
  | nil => rfl
  | cons r rs ih =>
    show encRec r.1 r.2.1 r.2.2 ++ encRecs (rs ++ rs2)
      = encRec r.1 r.2.1 r.2.2 ++ encRecs rs ++ encRecs rs2
    rw [ih, List.append_assoc]

theorem WFFile_encRecs : ∀ rs : List KVRecord, GoodRecs rs →
    WFFile (encRecs rs) := by
  intro rs
  induction rs with
  | nil => intro _; exact WFFile.nil
  | cons r rs ih =>
    intro hgood
    have hr := hgood r (List.mem_cons_self r rs)
    exact WFFile.cons r.1 r.2.1 r.2.2 (encRecs rs) hr.1 hr.2.1 hr.2.2.1
      hr.2.2.2 (ih fun q hq => hgood q (List.mem_cons_of_mem r hq))

/-- `WFFile` is exactly "the byte image of a list of good records", so the
record-list hypotheses of the amended C3 are the same precondition as
`WFFile`. -/
theorem WFFile_iff_encRecs (bytes : List Nat) :
    WFFile bytes
      ↔ ∃ rs : List KVRecord, GoodRecs rs ∧ bytes = encRecs rs := by
  constructor
  · intro hwf
    induction hwf with
    | nil => exact ⟨[], fun r hr => absurd hr (List.not_mem_nil r), rfl⟩
    | cons ts key value rest hts hk hv hka hrest ih =>
      obtain ⟨rs, hgood, rfl⟩ := ih
      refine ⟨(ts, key, value) :: rs, ?_, rfl⟩
      intro r hr
      rcases List.mem_cons.mp hr with rfl | hr2
      · exact ⟨hts, hk, hv, hka⟩
      · exact hgood r hr2
  · rintro ⟨rs, hgood, rfl⟩
    exact WFFile_encRecs rs hgood

/-- The startup scan of a good record sequence succeeds and computes
`scanIndex`. -/
theorem scanFuel_encRecs (fn : String) :
    ∀ rs : List KVRecord, GoodRecs rs →
      ∀ (fuel pos : Nat) (kd : KeyDir), (encRecs rs).length < fuel →
        scanFuel fn fuel pos (encRecs rs) kd
          = .ok (scanIndex fn pos rs kd) := by
  intro rs
  induction rs with
  | nil =>
    intro _ fuel pos kd hf
    obtain ⟨f, rfl⟩ : ∃ f, fuel = f + 1 := ⟨fuel - 1, by omega⟩
    exact scanFuel_nil fn f pos kd
  | cons r rs ih =>
    intro hgood fuel pos kd hf
    have hr := hgood r (List.mem_cons_self r rs)
    rw [encRecs_cons_length] at hf
    obtain ⟨f, rfl⟩ : ∃ f, fuel = f + 1 := ⟨fuel - 1, by omega⟩
    show scanFuel fn (f + 1) pos (encRec r.1 r.2.1 r.2.2 ++ encRecs rs) kd = _
    rw [scanFuel_encRec hr.1 hr.2.1 hr.2.2.1 hr.2.2.2 fn f pos (encRecs rs) kd]
    rw [ih (fun q hq => hgood q (List.mem_cons_of_mem r hq)) f _ _ (by omega)]
    rfl

/-- The scan's dict holds, for each key, the entry of the **last** record
with that key (records not in the scanned list fall through to the initial
dict). -/
theorem dict_get_scanIndex (fn : String) :
    ∀ (rs : List KVRecord) (pos : Nat) (kd : KeyDir) (k : List Nat),
      dict_get (scanIndex fn pos rs kd) k
        = match lastRec fn pos rs k with
          | some e => some e
          | none => dict_get kd k := by
  intro rs
  induction rs with
  | nil => intro pos kd k; rfl
  | cons r rs ih =>
    intro pos kd k
    show dict_get (scanIndex fn (pos + 12 + r.2.1.length + r.2.2.length) rs
      (dict_upsert kd r.2.1 (fun _ => recEntry fn pos r)
        (recEntry fn pos r))) k = _
    rw [ih]
    simp only [lastRec]
    cases hlast : lastRec fn (pos + 12 + r.2.1.length + r.2.2.length) rs k with
    | some e => rfl
    | none =>
      dsimp only
      by_cases hk : r.2.1 = k
      · rw [if_pos hk]
        subst hk
        rw [dict_get_upsert_self]
        cases dict_get kd r.2.1 <;> rfl
      · rw [if_neg hk]
        exact dict_get_upsert_ne (fun h => hk h.symm) kd _ _

theorem dict_get_scanIndex_nil (fn : String) (rs : List KVRecord) (pos : Nat)
    (k : List Nat) :
    dict_get (scanIndex fn pos rs []) k = lastRec fn pos rs k := by
  rw [dict_get_scanIndex]
  cases lastRec fn pos rs k <;> rfl

theorem lastRec_none_iff (fn : String) :
    ∀ (rs : List KVRecord) (pos : Nat) (k : List Nat),
      lastRec fn pos rs k = none ↔ ∀ r ∈ rs, r.2.1 ≠ k := by
  intro rs
  induction rs with
  | nil =>
    intro pos k
    simp [lastRec]
  | cons r rs ih =>
    intro pos k
    simp only [lastRec]
    cases hlast : lastRec fn (pos + 12 + r.2.1.length + r.2.2.length) rs k with
    | some e =>
      dsimp only
      constructor
      · intro h
        exact absurd h (by simp)
      · intro h
        have hn := (ih (pos + 12 + r.2.1.length + r.2.2.length) k).mpr
          fun q hq => h q (List.mem_cons_of_mem r hq)
        rw [hn] at hlast
        exact absurd hlast (by simp)
    | none =>
      dsimp only
      have hrs : ∀ q ∈ rs, q.2.1 ≠ k := (ih _ k).mp hlast
      by_cases hk : r.2.1 = k
      · rw [if_pos hk]
        constructor
        · intro h
          exact absurd h (by simp)
        · intro h
          exact absurd hk (h r (List.mem_cons_self r rs))
      · rw [if_neg hk]
        constructor
        · intro _ q hq
          rcases List.mem_cons.mp hq with rfl | hq2
          · exact hk
          · exact hrs q hq2
        · intro _
          rfl

theorem lastRec_append (fn : String) :
    ∀ (rs1 rs2 : List KVRecord) (pos : Nat) (k : List Nat),
      lastRec fn pos (rs1 ++ rs2) k
        = match lastRec fn (pos + (encRecs rs1).length) rs2 k with
          | some e => some e
          | none => lastRec fn pos rs1 k := by
  intro rs1
  induction rs1 with
  | nil =>
    intro rs2 pos k
    rw [List.nil_append]
    have h0 : pos + (encRecs ([] : List KVRecord)).length = pos := rfl
    rw [h0]
    cases lastRec fn pos rs2 k <;> rfl
  | cons r rs ih =>
    intro rs2 pos k
    show (match lastRec fn (pos + 12 + r.2.1.length + r.2.2.length)
        (rs ++ rs2) k with
      | some e => some e
      | none => if r.2.1 = k then some (recEntry fn pos r) else none) = _
    rw [ih]
    have hpos : pos + 12 + r.2.1.length + r.2.2.length + (encRecs rs).length
        = pos + (encRecs (r :: rs)).length := by
      rw [encRecs_cons_length]
      omega
    rw [hpos]
    cases lastRec fn (pos + (encRecs (r :: rs)).length) rs2 k with
    | some e => rfl
    | none =>
      dsimp only
      simp only [lastRec]

/-- The record appended at the end of the file wins for its own key. -/
theorem lastRec_snoc_self (fn : String) (pos : Nat) (rs : List KVRecord)
    (t : Nat) (k v : List Nat) :
    lastRec fn pos (rs ++ [(t, k, v)]) k
      = some (Entry.mk fn v.length
          (pos + (encRecs rs).length + 12 + k.length) t) := by
  rw [lastRec_append]
  have hsingle : lastRec fn (pos + (encRecs rs).length) [(t, k, v)] k
      = some (recEntry fn (pos + (encRecs rs).length) (t, k, v)) := by
    simp only [lastRec]
    simp
  rw [hsingle]
  rfl

theorem keyCount_eq_zero_iff (d : KeyDir) (k : List Nat) :
    keyCount d k = 0 ↔ dict_get d k = none := by
  induction d with
  | nil => simp [keyCount_nil, dict_get]
  | cons p rest ih =>
    by_cases hp : p.1 = k
    · rw [keyCount_cons_eq hp, dict_get_cons_eq hp]
      simp
    · rw [keyCount_cons_ne hp, dict_get_cons_ne hp, ih]

theorem scanIndex_counts (fn : String) :
    ∀ (rs : List KVRecord) (pos : Nat) (kd : KeyDir),
      (∀ k, keyCount kd k ≤ 1) →
      ∀ k, keyCount (scanIndex fn pos rs kd) k ≤ 1 := by
  intro rs
  induction rs with
  | nil =>
    intro pos kd h k
    exact h k
  | cons r rs ih =>
    intro pos kd h k
    exact ih _ _ (fun kk => keyCount_upsert_le (h kk) _ _ _) k

/-- C3 (amended): when the store's file is a well-formed record sequence
(the byte image of a list of good records — see `WFFile_iff_encRecs`), after
`set(k, v)` and `close()` a new store on the same file opens successfully;
its startup scan reconstructs **exactly one** index entry per distinct key
occurring in the file and none for other keys; for every key the entry is
that of the **last** record with that key in file order (`lastRec`), in
particular the entry for `k` describes the record the `set` wrote; and
`get(k)` on the new store returns `v`. -/
theorem c3_persistence_amended (fn : String) {s s1 : DiskStorage} {t : Nat}
    {k v : List Nat} {rs : List KVRecord}
    (hrs : s.file = encRecs rs) (hgood : GoodRecs rs)
    (hset : setOp t k v s = .ok s1) :
    ∃ s2 : DiskStorage,
      openStore fn (some (closeOp s1)) = .ok s2 ∧
      getOp s2 k = .ok v ∧
      (∀ k', keyCount s2.key_dir k'
        = if ∃ r ∈ rs ++ [(t, k, v)], r.2.1 = k' then 1 else 0) ∧
      (∀ k', dict_get s2.key_dir k' = lastRec fn 0 (rs ++ [(t, k, v)]) k') ∧
      dict_get s2.key_dir k
        = some (Entry.mk fn v.length (s.file.length + 12 + k.length) t) := by
  obtain ⟨hka, hva, hts, hk, hv, rfl⟩ := setOp_ok_inv hset
  have hgood2 : GoodRecs (rs ++ [(t, k, v)]) := by
    intro r hr
    rcases List.mem_append.mp hr with h1 | h1
    · exact hgood r h1
    · obtain rfl := List.mem_singleton.mp h1
      exact ⟨hts, hk, hv, hka⟩
  have hfile : s.file ++ encRec t k v = encRecs (rs ++ [(t, k, v)]) := by
    rw [hrs, encRecs_append]
    simp [encRecs]
  refine ⟨DiskStorage.mk fn (scanIndex fn 0 (rs ++ [(t, k, v)]) [])
    (s.file ++ encRec t k v), ?_, ?_, ?_, ?_, ?_⟩
  · unfold openStore closeOp
    dsimp only
    rw [hfile, scanFuel_encRecs fn (rs ++ [(t, k, v)]) hgood2
      ((encRecs (rs ++ [(t, k, v)])).length + 1) 0 [] (by omega)]
  · unfold getOp
    dsimp only
    rw [dict_get_scanIndex_nil, lastRec_snoc_self]
    dsimp only
    rw [Nat.zero_add, ← hrs, read_appended_value]
    exact bytes_decode_ascii_ok hva
  · intro k'
    dsimp only
    by_cases hex : ∃ r ∈ rs ++ [(t, k, v)], r.2.1 = k'
    · rw [if_pos hex]
      have hle := scanIndex_counts fn (rs ++ [(t, k, v)]) 0 []
        (fun kk => by rw [keyCount_nil]; omega) k'
      have hne : keyCount (scanIndex fn 0 (rs ++ [(t, k, v)]) []) k' ≠ 0 := by
        intro h0
        have hnone := (keyCount_eq_zero_iff _ _).mp h0
        rw [dict_get_scanIndex_nil] at hnone
        obtain ⟨r, hr, hrk⟩ := hex
        exact ((lastRec_none_iff fn (rs ++ [(t, k, v)]) 0 k').mp hnone) r hr hrk
      omega
    · rw [if_neg hex]
      push_neg at hex
      refine (keyCount_eq_zero_iff _ _).mpr ?_
      rw [dict_get_scanIndex_nil]
      exact (lastRec_none_iff fn _ 0 k').mpr hex
  · intro k'
    dsimp only
    exact dict_get_scanIndex_nil fn _ 0 k'
  · dsimp only
    rw [dict_get_scanIndex_nil, lastRec_snoc_self, Nat.zero_add, ← hrs]

def c3w_s0 : DiskStorage := DiskStorage.mk "books.db" [] []

def c3w_s1 : DiskStorage :=
  DiskStorage.mk "books.db" [([97], Entry.mk "books.db" 1 13 0)]
    [0, 0, 0, 0, 0, 0, 0, 1, 0, 0, 0, 1, 97, 98]

/-- C3 (amended) witness: the concrete run on a fresh store. -/
theorem c3_persistence_amended_witness :
    ∃ s2 : DiskStorage,
      openStore "books.db" (some (closeOp c3w_s1)) = .ok s2 ∧
      getOp s2 [97] = .ok [98] ∧
      (∀ k', keyCount s2.key_dir k'
        = if ∃ r ∈ ([] : List KVRecord) ++ [(0, [97], [98])], r.2.1 = k'
          then 1 else 0) ∧
      (∀ k', dict_get s2.key_dir k'
        = lastRec "books.db" 0 (([] : List KVRecord) ++ [(0, [97], [98])]) k') ∧
      dict_get s2.key_dir [97] = some (Entry.mk "books.db" 1 13 0) :=
  c3_persistence_amended "books.db" rfl
    (fun r hr => absurd hr (List.not_mem_nil r))
    (by rfl : setOp 0 [97] [98] c3w_s0 = Except.ok c3w_s1)

def c4_file : List Nat := [0, 0, 0, 0, 0, 0, 0, 0, 0, 0, 0, 1]

def c4_store : DiskStorage :=
  DiskStorage.mk "books.db" [([], Entry.mk "books.db" 1 12 0)] c4_file

/-- C4 counterexample: opening the truncated file `c4_file` (a header that
claims a 1-byte value with no value bytes) succeeds, and the resulting Ready
store has an index entry with `value_position + value_size = 13 > 12`, the
file length — the invariant is already violated when the store becomes
Ready. -/
theorem c4_counterexample :
    openStore "books.db" (some c4_file) = .ok c4_store ∧
    ¬ StoreInv c4_store :=
  ⟨rfl, by decide⟩

/-- C4 (amended): provided the file present at open was a well-formed
sequence of complete records, every Ready store reachable from it satisfies
`value_position + value_size ≤ file length` for all its index entries, after
open and after every `set` (a `get` does not change the state). -/
theorem c4_invariant_amended {s : DiskStorage} (h : ReachableWF s) :
    StoreInv s :=
  reachableWF_inv h

/-- C4 (amended) witness: a freshly opened empty store. -/
theorem c4_invariant_amended_witness :
    StoreInv (DiskStorage.mk "data.db" [] []) :=
  c4_invariant_amended
    (ReachableWF.openR "data.db" [] (DiskStorage.mk "data.db" [] [])
      WFFile.nil rfl)

/-- C6: during the startup scan, when a header boundary is reached with zero
bytes remaining the scan stops cleanly and open succeeds; when 1 to 11 bytes
remain at a header boundary, open fails with the corruption error and no
store is produced (the store never becomes Ready). -/
theorem c6_scan_boundary (bytes t : List Nat) (fn : String)
    (hwf : WFFile bytes) :
    (t = [] → ∃ s, openStore fn (some (bytes ++ t)) = .ok s) ∧
    (1 ≤ t.length → t.length ≤ 11 →
      openStore fn (some (bytes ++ t))
        = .error "Expected 12 byte header but got fewer bytes") := by
  constructor
  · rintro rfl
    rw [List.append_nil]
    obtain ⟨kd, hopen, -, -⟩ := openStore_wf hwf fn
    exact ⟨_, hopen⟩
  · intro h1 h11
    obtain ⟨kd', fuel', hf', heq, -, -⟩ :=
      scan_through hwf fn t ((bytes ++ t).length + 1) 0 []
        (by rw [List.length_append]; omega)
    obtain ⟨g, rfl⟩ : ∃ g, fuel' = g + 1 := ⟨fuel' - 1, by omega⟩
    rw [scanFuel_short h1 h11] at heq
    unfold openStore
    dsimp only
    rw [heq]

/-- C6 witness: the empty record sequence followed by zero remaining bytes
(open succeeds) and by one remaining byte (open fails with the corruption
error). -/
theorem c6_scan_boundary_witness :
    (∃ s, openStore "data.db" (some (([] : List Nat) ++ [])) = .ok s) ∧
    openStore "data.db" (some (([] : List Nat) ++ [5]))
      = .error "Expected 12 byte header but got fewer bytes" :=
  ⟨(c6_scan_boundary [] [] "data.db" WFFile.nil).1 rfl,
   (c6_scan_boundary [] [5] "data.db" WFFile.nil).2 (by decide) (by decide)⟩

/-! ## Claim theorems: C5, C7, C8, C9, C10 -/

def c5_data : List Nat := [0, 0, 0, 0, 0, 0, 0, 0, 0, 0, 0, 5]

/-- C5 counterexample: `c5_data` is 12 bytes whose header claims a 5-byte
value, so it is shorter than `12 + key_len + value_len`; `decode_kv` does
not fail with a truncated-record error — it succeeds, returning empty
slices. -/
theorem c5_counterexample :
    decode_kv c5_data = .ok (0, [], []) ∧ c5_data.length < 12 + 0 + 5 :=
  ⟨rfl, by decide⟩

/-- C5 (amended): on byte sequences shorter than `12 + key_len + value_len`
(with 7-bit payload bytes), `decode_kv` does not raise a truncated-record
error: it succeeds, and the key and value it returns, concatenated, are
**exactly the bytes present after the header** (`k ++ v = data.drop 12`) — a
shortened result carved out of the input, never an out-of-bounds read. -/
theorem c5_truncated_amended (data : List Nat)
    (ha : ∀ c ∈ data.drop HEADER_SIZE, c < 128)
    (_htr : data.length
      < HEADER_SIZE + (decode_header (data.take HEADER_SIZE)).2.1
        + (decode_header (data.take HEADER_SIZE)).2.2) :
    ∃ t k v, decode_kv data = .ok (t, k, v) ∧
      k ++ v = data.drop HEADER_SIZE ∧
      k.length + v.length = data.length - HEADER_SIZE := by
  have h1 : ∀ c ∈ (data.drop HEADER_SIZE).take
      (decode_header (data.take HEADER_SIZE)).2.1, c < 128 :=
    fun c hc => ha c (List.mem_of_mem_take hc)
  have h2 : ∀ c ∈ data.drop
      (HEADER_SIZE + (decode_header (data.take HEADER_SIZE)).2.1),
      c < 128 := by
    intro c hc
    rw [← List.drop_drop] at hc
    exact ha c (List.mem_of_mem_drop hc)
  refine ⟨(decode_header (data.take HEADER_SIZE)).1,
    (data.drop HEADER_SIZE).take (decode_header (data.take HEADER_SIZE)).2.1,
    data.drop (HEADER_SIZE + (decode_header (data.take HEADER_SIZE)).2.1),
    ?_, ?_, ?_⟩
  · unfold decode_kv
    dsimp only
    rw [bytes_decode_ascii_ok h1]
    dsimp only
    rw [bytes_decode_ascii_ok h2]
  · rw [← List.drop_drop]
    exact List.take_append_drop _ _
  · rw [List.length_take, List.length_drop, List.length_drop]
    omega

def c5w_data : List Nat := [0, 0, 0, 0, 0, 0, 0, 0, 0, 0, 0, 7, 1]

/-- C5 (amended) witness: 13 bytes whose header claims a 7-byte value. -/
theorem c5_truncated_amended_witness :
    ∃ t k v, decode_kv c5w_data = .ok (t, k, v) ∧
      k ++ v = c5w_data.drop HEADER_SIZE ∧
      k.length + v.length = c5w_data.length - HEADER_SIZE :=
  c5_truncated_amended c5w_data (by decide) (by decide)

/-- C7: constructing a `DiskStorage` at a path where no file exists fails
with `FileNotFoundError` — `open(file_name, "rb")` runs before the creating
append-mode handle — instead of creating the file and becoming Ready with an
empty index as the spec requires. -/
theorem c7_open_missing_file :
    openStore "books.db" none = .error "FileNotFoundError" := rfl

/-- C8: a `set` whose timestamp, key byte length, or value byte length does
not fit in an unsigned 4-byte field fails with the encoding-overflow error
from `int_to_bytes`; the error is raised inside `encode_kv`, before the
write to the file or the index update in `set` (in this pure embedding a
failing `setOp` produces no new state at all, so file and index are exactly
as before the call). -/
theorem c8_overflow_before_write (s : DiskStorage) (t : Nat)
    (k v : List Nat)
    (hka : ∀ c ∈ k, c < 128) (hva : ∀ c ∈ v, c < 128)
    (hov : 2 ^ 32 ≤ t ∨ 2 ^ 32 ≤ k.length ∨ 2 ^ 32 ≤ v.length) :
    setOp t k v s = .error "int was greater than 4 bytes" := by
  have h32 : (2 : Nat) ^ 32 = 4294967296 := by norm_num
  rw [h32] at hov
  unfold setOp encode_kv
  rw [str_encode_ascii_ok hka]
  dsimp only
  rw [str_encode_ascii_ok hva]
  dsimp only
  rcases hov with h | h | h
  · rw [encode_header_err_ts h]
  · by_cases hts : 4294967296 ≤ t
    · rw [encode_header_err_ts hts]
    · rw [encode_header_err_ks (by omega) h]
  · by_cases hts : 4294967296 ≤ t
    · rw [encode_header_err_ts hts]
    · by_cases hks : 4294967296 ≤ k.length
      · rw [encode_header_err_ks (by omega) hks]
      · rw [encode_header_err_vs (by omega) (by omega) h]

/-- C8 witness: a timestamp of `2^32` on a fresh store. -/
theorem c8_overflow_before_write_witness :
    setOp (2 ^ 32) [] [] (DiskStorage.mk "data.db" [] [])
      = .error "int was greater than 4 bytes" :=
  c8_overflow_before_write (DiskStorage.mk "data.db" [] []) (2 ^ 32) [] []
    (by simp) (by simp) (Or.inl le_rfl)

def c9_data : List Nat := [0, 0, 0, 0, 0, 0, 0, 1, 0, 0, 0, 1, 97, 98, 99]

/-- C9 counterexample: `c9_data` is a complete record (`key_len = 1`,
`value_len = 1`) followed by one trailing byte, so its length exceeds
`12 + key_len + value_len`; `decode_kv` returns the trailing byte inside the
value (`[98, 99]` instead of the claimed `value_len`-byte slice `[98]`),
because the value slice runs to `len(data)`. -/
theorem c9_counterexample :
    decode_kv c9_data = .ok (0, [97], [98, 99]) ∧
    12 + 1 + 1 ≤ c9_data.length ∧ ([98, 99] : List Nat) ≠ [98] :=
  ⟨rfl, by decide, by decide⟩

/-- C9 (amended): for **every** input (with 7-bit payload bytes),
`decode_kv` returns as key exactly the slice `[12, 12 + key_len)` and as
value **all** bytes from `12 + key_len` to the end of the input — the
slicing is driven by the decoded key length only.  Consequently the value
equals the `value_len`-byte slice `[12 + key_len, 12 + key_len + value_len)`
exactly when the input is exactly `12 + key_len + value_len` bytes long;
with trailing bytes present the value extends past the record instead. -/
theorem c9_slicing_amended (data : List Nat) (ks vs : Nat)
    (hks : ks = (decode_header (data.take HEADER_SIZE)).2.1)
    (hvs : vs = (decode_header (data.take HEADER_SIZE)).2.2)
    (ha : ∀ c ∈ data.drop HEADER_SIZE, c < 128) :
    decode_kv data
      = .ok ((decode_header (data.take HEADER_SIZE)).1,
          (data.drop HEADER_SIZE).take ks,
          data.drop (HEADER_SIZE + ks)) ∧
    (data.length = HEADER_SIZE + ks + vs →
      data.drop (HEADER_SIZE + ks)
        = (data.drop (HEADER_SIZE + ks)).take vs) := by
  subst hks
  subst hvs
  have h1 : ∀ c ∈ (data.drop HEADER_SIZE).take
      (decode_header (data.take HEADER_SIZE)).2.1, c < 128 :=
    fun c hc => ha c (List.mem_of_mem_take hc)
  have h2 : ∀ c ∈ data.drop
      (HEADER_SIZE + (decode_header (data.take HEADER_SIZE)).2.1),
      c < 128 := by
    intro c hc
    rw [← List.drop_drop] at hc
    exact ha c (List.mem_of_mem_drop hc)
  constructor
  · unfold decode_kv
    dsimp only
    rw [bytes_decode_ascii_ok h1]
    dsimp only
    rw [bytes_decode_ascii_ok h2]
  · intro hlen
    exact (List.take_of_length_le (by rw [List.length_drop]; omega)).symm

def c9w_data : List Nat := [0, 0, 0, 0, 0, 0, 0, 1, 0, 0, 0, 1, 97, 98]

/-- C9 (amended) witness: a record of exactly `12 + 1 + 1` bytes, for which
the to-the-end value slice coincides with the `value_len`-byte slice. -/
theorem c9_slicing_amended_witness :
    (decode_kv c9w_data
      = .ok ((decode_header (c9w_data.take HEADER_SIZE)).1,
          (c9w_data.drop HEADER_SIZE).take 1,
          c9w_data.drop (HEADER_SIZE + 1))) ∧
    (c9w_data.length = HEADER_SIZE + 1 + 1 →
      c9w_data.drop (HEADER_SIZE + 1)
        = (c9w_data.drop (HEADER_SIZE + 1)).take 1) :=
  c9_slicing_amended c9w_data 1 1 rfl rfl (by decide)

def c10_file : List Nat := [0, 0, 0, 0, 0, 0, 0, 0, 0, 0, 0, 1]

/-- C10 counterexample: on the Ready store opened from `c10_file` (a header
claiming one value byte at end-of-file), `get("")` returns `""` before
`set("a", "b")` but returns `"\x00"` after it: the appended record's first
byte lands exactly at the stale entry's out-of-range `value_position`, so a
`set` of the distinct key `"a"` changes what `get("")` observes. -/
theorem c10_counterexample :
    ((openStore "books.db" (some c10_file)).bind fun s =>
      (setOp 0 [97] [98] s).map fun s1 => (getOp s [], getOp s1 []))
      = .ok (.ok [], .ok [0]) ∧
    (Except.ok ([] : List Nat) : Except String (List Nat)) ≠ .ok [0] :=
  ⟨rfl, by simp⟩

/-- C10 (amended): on a Ready store whose index entries all lie inside the
file (`StoreInv`, which holds for every store reachable from a well-formed
file), `set(k, v)` leaves the entry of every other key `k'` unchanged and
`get(k')` returns the same result before and after the call. -/
theorem c10_frame_amended {s s1 : DiskStorage} {t : Nat}
    {k v k' : List Nat} (hinv : StoreInv s)
    (hset : setOp t k v s = .ok s1) (hne : k' ≠ k) :
    dict_get s1.key_dir k' = dict_get s.key_dir k' ∧
    getOp s1 k' = getOp s k' :=
  ⟨dict_get_setOp_ne hset hne, getOp_setOp_ne hinv hset hne⟩

def c10w_s : DiskStorage :=
  DiskStorage.mk "data.db" [([104], Entry.mk "data.db" 1 13 5)]
    [0, 0, 0, 5, 0, 0, 0, 1, 0, 0, 0, 1, 104, 97]

def c10w_s1 : DiskStorage :=
  DiskStorage.mk "data.db"
    [([104], Entry.mk "data.db" 1 13 5), ([105], Entry.mk "data.db" 1 27 6)]
    [0, 0, 0, 5, 0, 0, 0, 1, 0, 0, 0, 1, 104, 97,
     0, 0, 0, 6, 0, 0, 0, 1, 0, 0, 0, 1, 105, 98]

/-- C10 (amended) witness: setting key `"i"` leaves key `"h"` untouched. -/
theorem c10_frame_amended_witness :
    dict_get c10w_s1.key_dir [104] = dict_get c10w_s.key_dir [104] ∧
    getOp c10w_s1 [104] = getOp c10w_s [104] :=
  c10_frame_amended (by decide)
    (by rfl : setOp 6 [105] [98] c10w_s = Except.ok c10w_s1) (by decide)

end CaskDB
